import Mathlib

/-!
Verification of the EMC (EFE Model & Collection) change-propagation engine.

This file gives a shallow embedding, in Lean 4, of the core of the `emc`
library: the diff-merge engine (`mergeDiffNode` / `mergeDiffObject` /
`purgeUneccessaryDiffNode` from the Model source), the update algebra
(`src/update.js`), and the property store pipeline of `src/Model.js`
(`set`, `remove`, `update`, `dispose`, the private `SET_VALUE` /
`ASSIGN_VALUE` commit path and the computed-property cascade).

Modelling conventions:
  * JavaScript values are the inductive `Value`.  Strict equality `===`
    is modelled by the structural boolean `seq`; object identity is
    identified with structural identity (fresh shallow clones compare
    equal to their source).  `undefined` is an ordinary value (`.undefined`),
    so an absent key and a key holding `undefined` are distinguished by
    association-list membership, exactly as `hasOwnProperty` does.
  * JS objects used as string-keyed records (the store, the batch diff,
    the old-value snapshot) are association lists preserving insertion
    order; `delete` removes the key.
  * The event channel is external (mini-event).  `beforechange` handlers
    are modelled by a `Hook` oracle that may prevent the assignment and
    substitute `actualValue`; emitted notifications are returned as an
    event trace.  The asynchronous `update` notification is represented
    by the `pending` flag plus the accumulated diff.
  * Re-evaluation of computed properties can cascade without bound, so
    the mutually recursive commit pipeline takes a fuel parameter and
    returns `none` when the fuel runs out.
  * Computed-property descriptors are embedded in the getter-only form
    (`defineComputedProperty(name, deps, getterFunction)`); setting such
    a property throws the read-only error, as in the source.
-/

namespace EMC

/-- JavaScript values, as used by the engine.  Numbers are modelled as
integers (no NaN), objects and arrays carry their contents. -/
inductive Value where
  | undefined : Value
  | vnull : Value
  | vbool : Bool → Value
  | vint : Int → Value
  | vstr : String → Value
  | vobj : List (String × Value) → Value
  | varr : List Value → Value

mutual

/-- Strict equality `===` on values (structural; see the modelling note). -/
def seq : Value → Value → Bool
  | .undefined, .undefined => true
  | .vnull, .vnull => true
  | .vbool a, .vbool b => a == b
  | .vint a, .vint b => a == b
  | .vstr a, .vstr b => a == b
  | .vobj fs, .vobj gs => seqFields fs gs
  | .varr xs, .varr ys => seqList xs ys
  | _, _ => false

/-- Pointwise `seq` on object field lists. -/
def seqFields : List (String × Value) → List (String × Value) → Bool
  | [], [] => true
  | (k, v) :: fs, (l, w) :: gs => k == l && seq v w && seqFields fs gs
  | _, _ => false

/-- Pointwise `seq` on array element lists. -/
def seqList : List Value → List Value → Bool
  | [], [] => true
  | x :: xs, y :: ys => seq x y && seqList xs ys
  | _, _ => false

end

mutual

theorem seq_refl : (v : Value) → seq v v = true
  | .undefined => rfl
  | .vnull => rfl
  | .vbool b => by simp [seq]
  | .vint n => by simp [seq]
  | .vstr s => by simp [seq]
  | .vobj fs => by simp [seq, seqFields_refl fs]
  | .varr xs => by simp [seq, seqList_refl xs]

theorem seqFields_refl : (fs : List (String × Value)) → seqFields fs fs = true
  | [] => rfl
  | (k, v) :: fs => by simp [seqFields, seq_refl v, seqFields_refl fs]

theorem seqList_refl : (xs : List Value) → seqList xs xs = true
  | [] => rfl
  | x :: xs => by simp [seqList, seq_refl x, seqList_refl xs]

end

mutual

theorem eq_of_seq : (a b : Value) → seq a b = true → a = b
  | .undefined, .undefined, _ => rfl
  | .vnull, .vnull, _ => rfl
  | .vbool a, .vbool b, h => by simpa [seq] using h
  | .vint a, .vint b, h => by simpa [seq] using h
  | .vstr a, .vstr b, h => by simpa [seq] using h
  | .vobj fs, .vobj gs, h => by
      simp only [seq] at h
      exact congrArg Value.vobj (eq_of_seqFields fs gs h)
  | .varr xs, .varr ys, h => by
      simp only [seq] at h
      exact congrArg Value.varr (eq_of_seqList xs ys h)

theorem eq_of_seqFields : (fs gs : List (String × Value)) → seqFields fs gs = true → fs = gs
  | [], [], _ => rfl
  | (k, v) :: fs, (l, w) :: gs, h => by
      simp only [seqFields, Bool.and_eq_true, beq_iff_eq] at h
      obtain ⟨⟨hk, hv⟩, ht⟩ := h
      rw [hk, eq_of_seq v w hv, eq_of_seqFields fs gs ht]

theorem eq_of_seqList : (xs ys : List Value) → seqList xs ys = true → xs = ys
  | [], [], _ => rfl
  | x :: xs, y :: ys, h => by
      simp only [seqList, Bool.and_eq_true] at h
      rw [eq_of_seq x y h.1, eq_of_seqList xs ys h.2]

end

theorem seq_iff_eq (a b : Value) : seq a b = true ↔ a = b :=
  ⟨eq_of_seq a b, fun h => h ▸ seq_refl a⟩

theorem seq_symm_false (a b : Value) (h : seq a b = false) : seq b a = false := by
  cases hx : seq b a
  · rfl
  · rw [eq_of_seq b a hx, seq_refl] at h
    exact absurd h (by simp)

instance : DecidableEq Value := fun a b =>
  if h : seq a b = true then .isTrue (eq_of_seq a b h)
  else .isFalse (fun he => h (he ▸ seq_refl a))

/-- JS truthiness of a value. -/
def truthy : Value → Bool
  | .undefined => false
  | .vnull => false
  | .vbool b => b
  | .vint n => n != 0
  | .vstr s => s != ""
  | .vobj _ => true
  | .varr _ => true

/-- Association-list lookup, modelling JS key access on a record object
(`none` when the key is absent). -/
def lookupA : List (String × α) → String → Option α
  | [], _ => none
  | (k, v) :: rest, key => if k = key then some v else lookupA rest key

/-- Key access returning `undefined` for an absent key, as `obj[key]` does. -/
def lookupV (l : List (String × Value)) (key : String) : Value :=
  (lookupA l key).getD .undefined

/-- Modelling of `hasOwnProperty` on a record object. -/
def hasKeyA (l : List (String × α)) (key : String) : Bool :=
  (lookupA l key).isSome

/-- Key assignment on a record object: replaces in place, else appends
(JS insertion order). -/
def setA : List (String × α) → String → α → List (String × α)
  | [], key, v => [(key, v)]
  | (k, w) :: rest, key, v =>
      if k = key then (k, v) :: rest else (k, w) :: setA rest key v

/-- Modelling of the `delete` operator on a record object. -/
def removeA : List (String × α) → String → List (String × α)
  | [], _ => []
  | (k, w) :: rest, key =>
      if k = key then removeA rest key else (k, w) :: removeA rest key

theorem lookupA_setA_self (l : List (String × α)) (k : String) (v : α) :
    lookupA (setA l k v) k = some v := by
  induction l with
  | nil => simp [setA, lookupA]
  | cons hd tl ih =>
      obtain ⟨k', v'⟩ := hd
      by_cases h : k' = k <;> simp [setA, lookupA, h, ih]

theorem lookupA_setA_ne (l : List (String × α)) (k p : String) (v : α) (h : p ≠ k) :
    lookupA (setA l k v) p = lookupA l p := by
  have hkp : ¬ k = p := fun he => h he.symm
  induction l with
  | nil => simp [setA, lookupA, hkp]
  | cons hd tl ih =>
      obtain ⟨k', v'⟩ := hd
      by_cases hk : k' = k
      · subst hk
        simp [setA, lookupA, hkp]
      · by_cases hp : k' = p <;> simp [setA, lookupA, hk, hp, hkp, h, ih]

theorem lookupA_removeA_self (l : List (String × α)) (k : String) :
    lookupA (removeA l k) k = none := by
  induction l with
  | nil => simp [removeA, lookupA]
  | cons hd tl ih =>
      obtain ⟨k', v'⟩ := hd
      by_cases h : k' = k <;> simp [removeA, lookupA, h, ih]

theorem lookupA_removeA_ne (l : List (String × α)) (k p : String) (h : p ≠ k) :
    lookupA (removeA l k) p = lookupA l p := by
  have hkp : ¬ k = p := fun he => h he.symm
  induction l with
  | nil => simp [removeA]
  | cons hd tl ih =>
      obtain ⟨k', v'⟩ := hd
      by_cases hk : k' = k
      · subst hk
        simp [removeA, lookupA, hkp, ih]
      · by_cases hp : k' = p <;> simp [removeA, lookupA, hk, hp, hkp, h, ih]

/-- Key access through a `Value` (`v[key]`), `undefined` for non-objects;
used by the merge recursion and the update algebra. -/
def getKeyV : Value → String → Value
  | .vobj fs, key => lookupV fs key
  | _, _ => .undefined

/-- Modelling of `hasOwnProperty` through a `Value`. -/
def jsHasKey : Value → String → Bool
  | .vobj fs, key => hasKeyA fs key
  | _, _ => false

/-- Modelling of `Object.keys` (own keys of a plain object; non-objects
have none in the embedded fragment). -/
def objKeys : Value → List String
  | .vobj fs => fs.map Prod.fst
  | _ => []

/-- The change type carried by a leaf diff node (`$change`). -/
inductive ChangeType where
  | add : ChangeType
  | change : ChangeType
  | remove : ChangeType
deriving DecidableEq

/-- A diff node is either a leaf `{$change, oldValue, newValue}` or a
structural node mapping child keys to child diff nodes. -/
inductive DiffNode where
  | leaf : ChangeType → Value → Value → DiffNode
  | branch : List (String × DiffNode) → DiffNode

/-- Modelling of `isDiffObject` (`target.hasOwnProperty('$change')`). -/
def isDiffObject : DiffNode → Bool
  | .leaf _ _ _ => true
  | .branch _ => false

/-- Translation of `purgeUneccessaryDiffNode`: an empty structural node,
or a `change` leaf whose values are strictly equal, purges to `null`. -/
def purgeUneccessaryDiffNode : DiffNode → Option DiffNode
  | .branch [] => none
  | .leaf .change o n => if seq n o then none else some (.leaf .change o n)
  | d => some d

/-- Translation of `mergeDiffObject` for two leaf diff nodes (the only
shape at which the source calls it; both arguments are diff objects
guarded by `isDiffObject` at the call site). -/
def mergeDiffObject : DiffNode → DiffNode → Option DiffNode
  | .leaf cx ox _, .leaf cy _ ny =>
      if cx = .add ∧ cy = .remove then none
      else
        purgeUneccessaryDiffNode
          (.leaf (if cx = .add then .add else if cy = .remove then .remove else .change) ox ny)
  | _, y => some y

mutual

/-- Translation of `mergeDiffNode(stored, merging, newValue, oldValue)`:
folds a freshly produced diff node into the accumulated one, given the
current value and the pre-batch old value at the path. -/
def mergeDiffNode : Option DiffNode → Option DiffNode → Value → Value → Option DiffNode
  | none, merging, _, _ => merging
  | stored, none, _, _ => stored
  | some s, some m, newValue, oldValue =>
      match s, m with
      | .leaf cs os ns, .leaf cm om nm => mergeDiffObject (.leaf cs os ns) (.leaf cm om nm)
      | .leaf cs os _, .branch _ => purgeUneccessaryDiffNode (.leaf cs os newValue)
      | .branch _, .leaf cm _ nm => purgeUneccessaryDiffNode (.leaf cm oldValue nm)
      | .branch cs, .branch cm =>
          purgeUneccessaryDiffNode (.branch (mergeChildren cs cm newValue oldValue))

/-- The child iteration of `mergeDiffNode` over the keys of `merging`:
each merged child is stored back, a purged child is deleted. -/
def mergeChildren :
    List (String × DiffNode) → List (String × DiffNode) → Value → Value →
      List (String × DiffNode)
  | acc, [], _, _ => acc
  | acc, (k, mc) :: rest, newValue, oldValue =>
      let merged := mergeDiffNode (lookupA acc k) (some mc) (getKeyV newValue k)
        (if truthy oldValue then getKeyV oldValue k else .undefined)
      let acc2 := match merged with
        | some n => setA acc k n
        | none => removeA acc k
      mergeChildren acc2 rest newValue oldValue

end

/-- The top-level merge `MERGE_UPDATE_DIFF` performs on the batch diff:
the accumulated diff object and the single-key merging object are both
plain records, so the source's branch-branch iteration applies, with the
store supplying current values and the snapshot supplying old values. -/
def mergeUpdateDiffMap (dmap merging : List (String × DiffNode))
    (store oldValues : List (String × Value)) : List (String × DiffNode) :=
  merging.foldl
    (fun acc kv =>
      match mergeDiffNode (lookupA acc kv.fst) (some kv.snd)
          (lookupV store kv.fst) (lookupV oldValues kv.fst) with
      | some n => setA acc kv.fst n
      | none => removeA acc kv.fst)
    dmap

/-! The update algebra of `src/update.js`.  A command tree position is
either one of the six commands (detected in the source by
`hasOwnProperty('$set')` and so on, at most one per node in the embedded
fragment) or a mapping of child keys to further command trees; any
non-command, non-object value in command position behaves as a node with
no keys (`Object.keys` of it is empty), which `.node []` represents. -/
inductive CommandTree where
  | cset : Value → CommandTree
  | cpush : Value → CommandTree
  | cunshift : Value → CommandTree
  | cmerge : Value → CommandTree
  | cdefaults : Value → CommandTree
  | cinvoke : (Value → Value) → CommandTree
  | node : List (String × CommandTree) → CommandTree

/-- Key assignment through a `Value` (`container[key] = v`); `none` models
the strict-mode TypeError of assigning a property on a non-object. -/
def setKeyV : Value → String → Value → Option Value
  | .vobj fs, key, v => some (.vobj (setA fs key v))
  | _, _, _ => none

/-- Translation of the `$set` command (never fails). -/
def cmdSet (container : Value) (key : String) (nv : Value) : Value × Option DiffNode :=
  let old := getKeyV container key
  if seq nv old then (old, none)
  else (nv, some (.leaf (if jsHasKey container key then .change else .add) old nv))

/-- Translation of the `$push` command; fails (TypeError) unless the
current value is an array. -/
def cmdPush (container : Value) (key : String) (nv : Value) :
    Option (Value × Option DiffNode) :=
  match getKeyV container key with
  | .varr xs =>
      some (.varr (xs ++ [nv]), some (.leaf .change (.varr xs) (.varr (xs ++ [nv]))))
  | _ => none

/-- Translation of the `$unshift` command; fails unless the current value
is an array. -/
def cmdUnshift (container : Value) (key : String) (nv : Value) :
    Option (Value × Option DiffNode) :=
  match getKeyV container key with
  | .varr xs =>
      some (.varr (nv :: xs), some (.leaf .change (.varr xs) (.varr (nv :: xs))))
  | _ => none

/-- The iteration inside `$merge`: a recursive `$set` per own key of the
extension object, against the evolving shallow clone; only keys whose
`$set` produced a diff are written back and recorded. -/
def cmdMergeKeys : Value → List (String × DiffNode) → List (String × Value) →
    Option (Value × List (String × DiffNode))
  | nv, ds, [] => some (nv, ds)
  | nv, ds, (k, x) :: rest =>
      match cmdSet nv k x with
      | (_, none) => cmdMergeKeys nv ds rest
      | (pv, some d) =>
          match setKeyV nv k pv with
          | none => none
          | some nv2 => cmdMergeKeys nv2 (ds ++ [(k, d)]) rest

/-- Translation of the `$merge` command.  When the target is nullish the
extension (its shallow clone) replaces it wholesale with a leaf diff;
otherwise each own key of the extension is `$set` into a clone of the
target, producing a structural diff of the modified keys. -/
def cmdMerge (container : Value) (key : String) (ext : Value) :
    Option (Value × Option DiffNode) :=
  let target := getKeyV container key
  match target with
  | .undefined =>
      some (ext, some (.leaf (if jsHasKey container key then .change else .add) target ext))
  | .vnull =>
      some (ext, some (.leaf (if jsHasKey container key then .change else .add) target ext))
  | _ =>
      let exts := match ext with
        | .vobj fs => fs
        | _ => []
      match cmdMergeKeys target [] exts with
      | none => none
      | some (nv, ds) => some (nv, if ds.isEmpty then none else some (.branch ds))

/-- Translation of the `$defaults` command: `$merge` restricted to the
extension keys whose current value is `undefined`.  Reading those keys
off a nullish target throws, unless the defaults object has no keys. -/
def cmdDefaults (container : Value) (key : String) (dflts : Value) :
    Option (Value × Option DiffNode) :=
  let target := getKeyV container key
  let dfields := match dflts with
    | .vobj fs => fs
    | _ => []
  if dfields.isEmpty then cmdMerge container key (.vobj [])
  else
    match target with
    | .undefined => none
    | .vnull => none
    | _ =>
        let picked := dfields.filter (fun kv => getKeyV target kv.fst = .undefined)
        cmdMerge container key (.vobj picked)

/-- Translation of the `$invoke` command: apply the factory to the old
value, then `$set` the result. -/
def cmdInvoke (container : Value) (key : String) (f : Value → Value) :
    Value × Option DiffNode :=
  cmdSet container key (f (getKeyV container key))

/-- The wrapper object `{source}` the source builds to run a root command. -/
def rootWrapper (source : Value) : Value :=
  .vobj [("source", source)]

mutual

/-- Translation of the `update` function of `src/update.js`: apply a
command tree to a value, returning the new value and the diff (`none`
for a no-op), or `none` for a runtime error. -/
def updateAlg : Value → CommandTree → Option (Value × Option DiffNode)
  | source, .cset v => some (cmdSet (rootWrapper source) "source" v)
  | source, .cpush v => cmdPush (rootWrapper source) "source" v
  | source, .cunshift v => cmdUnshift (rootWrapper source) "source" v
  | source, .cmerge v => cmdMerge (rootWrapper source) "source" v
  | source, .cdefaults v => cmdDefaults (rootWrapper source) "source" v
  | source, .cinvoke f => some (cmdInvoke (rootWrapper source) "source" f)
  | source, .node children =>
      match updateChildren source children with
      | none => none
      | some (result, ds) =>
          some (result, if ds.isEmpty then none else some (.branch ds))

/-- The non-root iteration of `update`: each key holds either a command
(executed against the evolving clone, result always written back) or a
nested tree (recursed on the child value, `{}` when the child is falsy). -/
def updateChildren : Value → List (String × CommandTree) →
    Option (Value × List (String × DiffNode))
  | result, [] => some (result, [])
  | result, (key, .node cs) :: rest =>
      let child := getKeyV result key
      match updateAlg (if truthy child then child else .vobj []) (.node cs) with
      | none => none
      | some (nv, pd) =>
          match setKeyV result key nv with
          | none => none
          | some result2 =>
              match updateChildren result2 rest with
              | none => none
              | some (rf, ds) =>
                  some (rf, (match pd with
                    | some d => [(key, d)]
                    | none => []) ++ ds)
  | result, (key, sub) :: rest =>
      match updateCommandAt result key sub with
      | none => none
      | some (nv, pd) =>
          match setKeyV result key nv with
          | none => none
          | some result2 =>
              match updateChildren result2 rest with
              | none => none
              | some (rf, ds) =>
                  some (rf, (match pd with
                    | some d => [(key, d)]
                    | none => []) ++ ds)

/-- Dispatch of a command found at a child key of the iteration. -/
def updateCommandAt : Value → String → CommandTree → Option (Value × Option DiffNode)
  | container, key, .cset v => some (cmdSet container key v)
  | container, key, .cpush v => cmdPush container key v
  | container, key, .cunshift v => cmdUnshift container key v
  | container, key, .cmerge v => cmdMerge container key v
  | container, key, .cdefaults v => cmdDefaults container key v
  | container, key, .cinvoke f => some (cmdInvoke container key f)
  | _, _, .node _ => none

end

theorem mergeDiffNode_none_left (m : Option DiffNode) (nv ov : Value) :
    mergeDiffNode none m nv ov = m := by
  cases m <;> simp [mergeDiffNode]

theorem mergeDiffNode_leaf_leaf (cs : ChangeType) (os ns : Value) (cm : ChangeType)
    (om nm : Value) (nv ov : Value) :
    mergeDiffNode (some (.leaf cs os ns)) (some (.leaf cm om nm)) nv ov =
      mergeDiffObject (.leaf cs os ns) (.leaf cm om nm) := by
  simp [mergeDiffNode]

theorem mergeDiffNode_leaf_branch (c : ChangeType) (o n : Value)
    (cm : List (String × DiffNode)) (nv ov : Value) :
    mergeDiffNode (some (.leaf c o n)) (some (.branch cm)) nv ov =
      purgeUneccessaryDiffNode (.leaf c o nv) := by
  simp [mergeDiffNode]

theorem mergeDiffNode_branch_leaf (cs : List (String × DiffNode)) (c : ChangeType)
    (o n : Value) (nv ov : Value) :
    mergeDiffNode (some (.branch cs)) (some (.leaf c o n)) nv ov =
      purgeUneccessaryDiffNode (.leaf c ov n) := by
  simp [mergeDiffNode]

theorem mergeUpdateDiffMap_single_self (dmap : List (String × DiffNode)) (k : String)
    (node : DiffNode) (store oldValues : List (String × Value)) :
    lookupA (mergeUpdateDiffMap dmap [(k, node)] store oldValues) k =
      mergeDiffNode (lookupA dmap k) (some node) (lookupV store k) (lookupV oldValues k) := by
  simp only [mergeUpdateDiffMap, List.foldl]
  cases h : mergeDiffNode (lookupA dmap k) (some node) (lookupV store k) (lookupV oldValues k) with
  | none => simp [h, lookupA_removeA_self]
  | some n => simp [h, lookupA_setA_self]

theorem mergeUpdateDiffMap_single_ne (dmap : List (String × DiffNode)) (k p : String)
    (node : DiffNode) (store oldValues : List (String × Value)) (h : p ≠ k) :
    lookupA (mergeUpdateDiffMap dmap [(k, node)] store oldValues) p = lookupA dmap p := by
  simp only [mergeUpdateDiffMap, List.foldl]
  cases hm : mergeDiffNode (lookupA dmap k) (some node) (lookupV store k) (lookupV oldValues k) with
  | none => simp [hm, lookupA_removeA_ne _ _ _ h]
  | some n => simp [hm, lookupA_setA_ne _ _ _ _ h]

/-! The property store and computed-property engine of `src/Model.js`. -/

/-- A computed-property descriptor, in the getter-only form produced by
`defineComputedProperty(name, dependencies, getterFunction)`.  The getter
is a pure function of the store, per the stability and side-effect
requirements the source documents. -/
structure ComputedDescriptor where
  name : String
  dependencies : List String
  getter : List (String × Value) → Value
  evaluate : Bool

/-- The `options` argument of the mutators (`disableHook` is the internal
flag the computed-property cascade passes). -/
structure MOptions where
  silent : Bool
  disableHook : Bool

/-- What a `beforechange` handler did to the event object: whether it
called `preventDefault()` and the final `actualValue`. -/
structure HookResult where
  prevented : Bool
  actualValue : Value

/-- The external observer environment, as a pure oracle from the
`beforechange` payload `{name, changeType, oldValue, newValue}` to the
handler outcome. -/
def Hook : Type := String → ChangeType → Value → Value → HookResult

/-- A handler environment with no listeners: nothing is prevented and
`actualValue` stays the proposed value. -/
def defaultHook : Hook := fun _ _ _ nv => ⟨false, nv⟩

/-- Notifications fired synchronously by the pipeline. -/
inductive MEvent where
  | beforechange : String → ChangeType → Value → Value → MEvent
  | change : String → ChangeType → Value → Value → MEvent
deriving DecidableEq

/-- The property name an event concerns. -/
def eventName : MEvent → String
  | .beforechange n _ _ _ => n
  | .change n _ _ _ => n

/-- Whether an event is a post-change notification. -/
def isChangeEvent : MEvent → Bool
  | .beforechange _ _ _ _ => false
  | .change _ _ _ _ => true

/-- Errors thrown by the public operations.  `typeError` stands for the
runtime TypeError raised by reading a property of the nulled store or by
a command applied to an incompatible value. -/
inductive MErr where
  | disposed : MErr
  | noName : MErr
  | readonlyComputed : String → MErr
  | typeError : MErr
deriving DecidableEq

/-- The private state of one Model instance: the store, the descriptor
table, the batch diff, the pre-batch old-value snapshot, the computed
suppression mutex, the pending flag of the scheduled batched
notification, and disposal (`STORE === null`). -/
structure ModelState where
  store : List (String × Value)
  computed : List ComputedDescriptor
  diff : List (String × DiffNode)
  oldValues : List (String × Value)
  mutex : Nat
  pending : Bool
  disposed : Bool

/-- The names present in the computed-descriptor table. -/
def computedNames (st : ModelState) : List String :=
  st.computed.map (fun d => d.name)

/-- Translation of the private `HAS_COMPUTED_PROPERTY`. -/
def hasComputedProperty (st : ModelState) (name : String) : Bool :=
  st.computed.any (fun d => d.name == name)

/-- Translation of the private `HAS_PROPERTY`: the store's own keys or
the computed-descriptor table. -/
def hasPropertyB (st : ModelState) (name : String) : Bool :=
  hasKeyA st.store name || hasComputedProperty st name

/-- Descriptor lookup `COMPUTED_PROPERTIES[name]`. -/
def findDescriptor (st : ModelState) (name : String) : Option ComputedDescriptor :=
  st.computed.find? (fun d => d.name == name)

/-- The dependent-set computation of
`UPDATE_COMPUTED_PROPERTIES_FROM_DEPENDENCY`: for each changed name, the
names of the descriptors whose dependency set contains it, deduplicated
in insertion order. -/
def dependentsOf (computed : List ComputedDescriptor) (deps : List String) : List String :=
  deps.foldl
    (fun acc p =>
      ((computed.filter (fun d => d.dependencies.contains p)).map (fun d => d.name)).foldl
        (fun a n => if a.contains n then a else a ++ [n]) acc)
    []

theorem mem_foldl_dedup (l : List String) (acc : List String) (x : String)
    (h : x ∈ l.foldl (fun a n => if a.contains n then a else a ++ [n]) acc) :
    x ∈ acc ∨ x ∈ l := by
  induction l generalizing acc with
  | nil => exact .inl h
  | cons hd tl ih =>
      simp only [List.foldl] at h
      by_cases hc : acc.contains hd
      · simp only [hc, if_pos] at h
        rcases ih acc h with h1 | h1
        · exact .inl h1
        · exact .inr (List.mem_cons_of_mem _ h1)
      · simp only [hc, if_neg, Bool.false_eq_true, not_false_iff] at h
        rcases ih (acc ++ [hd]) h with h1 | h1
        · rcases List.mem_append.mp h1 with h2 | h2
          · exact .inl h2
          · simp only [List.mem_singleton] at h2
            exact .inr (h2 ▸ List.mem_cons_self _ _)
        · exact .inr (List.mem_cons_of_mem _ h1)

theorem mem_dependentsOf (computed : List ComputedDescriptor) (deps : List String)
    (x : String) (h : x ∈ dependentsOf computed deps) :
    x ∈ computed.map (fun d => d.name) := by
  unfold dependentsOf at h
  suffices haux : ∀ (ds : List String) (acc : List String),
      (∀ y ∈ acc, y ∈ computed.map (fun d => d.name)) →
      ∀ y ∈ ds.foldl
        (fun acc p =>
          ((computed.filter (fun d => d.dependencies.contains p)).map (fun d => d.name)).foldl
            (fun a n => if a.contains n then a else a ++ [n]) acc) acc,
        y ∈ computed.map (fun d => d.name) by
    exact haux deps [] (by simp) x h
  intro ds
  induction ds with
  | nil => intro acc hacc y hy; exact hacc y hy
  | cons hd tl ih =>
      intro acc hacc y hy
      simp only [List.foldl] at hy
      refine ih _ ?_ y hy
      intro z hz
      rcases mem_foldl_dedup _ _ _ hz with h1 | h1
      · exact hacc z h1
      · rcases List.mem_map.mp h1 with ⟨d, hd1, hd2⟩
        exact List.mem_map.mpr ⟨d, List.mem_of_mem_filter hd1, hd2⟩

theorem dependentsOf_eq_nil (computed : List ComputedDescriptor) (name : String)
    (h : ∀ d ∈ computed, d.dependencies.contains name = false) :
    dependentsOf computed [name] = [] := by
  unfold dependentsOf
  have hf : computed.filter (fun d => d.dependencies.contains name) = [] :=
    List.filter_eq_nil_iff.mpr (fun d hd => by
      intro hmem
      rw [h d hd] at hmem
      exact Bool.false_ne_true hmem)
  simp only [List.foldl]
  rw [hf]
  simp

mutual

/-- Translation of the private `ASSIGN_VALUE`: the commit itself.  Skips
a same-value `change`; snapshots the pre-batch old value once per key;
deletes or assigns the store key; merges the (supplied or freshly built)
diff node into the batch diff and schedules the batched notification;
fires `change` unless silent; cascades to dependent computed properties
when the suppression mutex is at zero. -/
def assignValue (hook : Hook) :
    Nat → ModelState → String → Value → ChangeType → MOptions → Option DiffNode →
      Option (ModelState × List MEvent)
  | 0, _, _, _, _, _, _ => none
  | fuel + 1, st, name, newValue, changeType, options, diffArg =>
      let oldValue := lookupV st.store name
      if changeType = ChangeType.change ∧ seq newValue oldValue = true then some (st, [])
      else
        let oldValues2 :=
          if hasKeyA st.oldValues name then st.oldValues
          else setA st.oldValues name (lookupV st.store name)
        let store2 :=
          if changeType = ChangeType.remove then removeA st.store name
          else setA st.store name newValue
        let node := diffArg.getD (.leaf changeType oldValue newValue)
        let diff2 := mergeUpdateDiffMap st.diff [(name, node)] store2 oldValues2
        let st2 : ModelState :=
          { st with store := store2, oldValues := oldValues2, diff := diff2, pending := true }
        let evs := if options.silent then [] else [MEvent.change name changeType oldValue newValue]
        if st.mutex = 0 then
          match runComputedUpdates hook fuel st2 (dependentsOf st2.computed [name]) with
          | none => none
          | some (st3, evs2) => some (st3, evs ++ evs2)
        else some (st2, evs)

/-- Translation of the private `SET_VALUE`: the commit pipeline of `set`
and `update`.  No-op when the property exists with a strictly equal
value; classifies the change with `HAS_PROPERTY`; fires the cancellable
`beforechange` unless silenced or hook-disabled; discards the supplied
diff when a handler substituted `actualValue`. -/
def setValue (hook : Hook) :
    Nat → ModelState → String → Value → MOptions → Option DiffNode →
      Option (ModelState × List MEvent)
  | 0, _, _, _, _, _ => none
  | fuel + 1, st, name, value, options, diffArg =>
      let oldValue := lookupV st.store name
      if hasPropertyB st name = true ∧ seq oldValue value = true then some (st, [])
      else
        let changeType := if hasPropertyB st name then ChangeType.change else ChangeType.add
        if options.silent || options.disableHook then
          assignValue hook fuel st name value changeType options diffArg
        else
          let hr := hook name changeType oldValue value
          if hr.prevented then some (st, [MEvent.beforechange name changeType oldValue value])
          else
            let actualDiff := if seq hr.actualValue value then diffArg else none
            match assignValue hook fuel st name hr.actualValue changeType options actualDiff with
            | none => none
            | some (st2, evs) =>
                some (st2, MEvent.beforechange name changeType oldValue value :: evs)

/-- Translation of the private `UPDATE_COMPUTED_PROPERTY`: re-invoke the
getter and push the result through `SET_VALUE` with the pre-change hook
disabled. -/
def updateComputedProperty (hook : Hook) :
    Nat → ModelState → String → Option (ModelState × List MEvent)
  | 0, _, _ => none
  | fuel + 1, st, name =>
      match findDescriptor st name with
      | none => some (st, [])
      | some d => setValue hook fuel st name (d.getter st.store) ⟨false, true⟩ none

/-- The `forEach` of `UPDATE_COMPUTED_PROPERTIES_FROM_DEPENDENCY` over
the collected dependent names. -/
def runComputedUpdates (hook : Hook) :
    Nat → ModelState → List String → Option (ModelState × List MEvent)
  | _, st, [] => some (st, [])
  | 0, _, _ :: _ => none
  | fuel + 1, st, n :: rest =>
      match updateComputedProperty hook fuel st n with
      | none => none
      | some (st2, e1) =>
          match runComputedUpdates hook fuel st2 rest with
          | none => none
          | some (st3, e2) => some (st3, e1 ++ e2)

end

/-- Preservation facts the commit-and-cascade machinery guarantees over a
base state: the descriptor table and mutex are untouched, a scheduled
batched notification stays scheduled, store and diff entries at keys
outside the touched set and outside the computed names survive, and every
emitted event is a `change` notification for a touched or computed name. -/
def CascadePres (st st2 : ModelState) (evs : List MEvent) (touched : List String) : Prop :=
  st2.computed = st.computed ∧
  st2.mutex = st.mutex ∧
  (st.pending = true → st2.pending = true) ∧
  (∀ p, p ∉ touched → p ∉ computedNames st →
    lookupA st2.store p = lookupA st.store p ∧ lookupA st2.diff p = lookupA st.diff p) ∧
  (∀ e ∈ evs, (eventName e ∈ touched ∨ eventName e ∈ computedNames st) ∧ isChangeEvent e = true)

theorem cascadePres_refl (st : ModelState) (touched : List String) :
    CascadePres st st [] touched :=
  ⟨rfl, rfl, fun hp => hp, fun _ _ _ => ⟨rfl, rfl⟩, by simp⟩

theorem pipelinePres (hook : Hook) : ∀ fuel : Nat,
    (∀ st name v ct opts dArg st2 evs,
      assignValue hook fuel st name v ct opts dArg = some (st2, evs) →
      CascadePres st st2 evs [name]) ∧
    (∀ st name v opts dArg st2 evs, opts.disableHook = true →
      setValue hook fuel st name v opts dArg = some (st2, evs) →
      CascadePres st st2 evs [name]) ∧
    (∀ st n st2 evs,
      updateComputedProperty hook fuel st n = some (st2, evs) →
      CascadePres st st2 evs [n]) ∧
    (∀ st names st2 evs, (∀ n ∈ names, n ∈ computedNames st) →
      runComputedUpdates hook fuel st names = some (st2, evs) →
      CascadePres st st2 evs []) := by
  intro fuel
  induction fuel with
  | zero =>
      refine ⟨?_, ?_, ?_, ?_⟩
      · intro st name v ct opts dArg st2 evs h; simp [assignValue] at h
      · intro st name v opts dArg st2 evs _ h; simp [setValue] at h
      · intro st n st2 evs h; simp [updateComputedProperty] at h
      · intro st names st2 evs _ h
        cases names with
        | nil =>
            simp only [runComputedUpdates, Option.some.injEq, Prod.mk.injEq] at h
            obtain ⟨rfl, rfl⟩ := h
            exact cascadePres_refl st []
        | cons n rest => simp [runComputedUpdates] at h
  | succ fuel ih =>
      obtain ⟨ihA, ihS, ihU, ihR⟩ := ih
      refine ⟨?_, ?_, ?_, ?_⟩
      · -- assignValue
        intro st name v ct opts dArg st2 evs h
        simp only [assignValue] at h
        split at h
        · simp only [Option.some.injEq, Prod.mk.injEq] at h
          obtain ⟨rfl, rfl⟩ := h
          exact cascadePres_refl st [name]
        · split at h
          · -- mutex = 0, cascade runs
            rename_i hmutex
            split at h
            · exact absurd h (by simp)
            · rename_i st3 evs2 heq
              simp only [Option.some.injEq, Prod.mk.injEq] at h
              obtain ⟨rfl, rfl⟩ := h
              have hmem : ∀ n ∈ dependentsOf
                  ({ st with
                      store := if ct = ChangeType.remove then removeA st.store name
                        else setA st.store name v,
                      oldValues := if hasKeyA st.oldValues name then st.oldValues
                        else setA st.oldValues name (lookupV st.store name),
                      diff := mergeUpdateDiffMap st.diff
                        [(name, dArg.getD (.leaf ct (lookupV st.store name) v))]
                        (if ct = ChangeType.remove then removeA st.store name
                          else setA st.store name v)
                        (if hasKeyA st.oldValues name then st.oldValues
                          else setA st.oldValues name (lookupV st.store name)),
                      pending := true } : ModelState).computed [name],
                  n ∈ computedNames
                    ({ st with
                        store := if ct = ChangeType.remove then removeA st.store name
                          else setA st.store name v,
                        oldValues := if hasKeyA st.oldValues name then st.oldValues
                          else setA st.oldValues name (lookupV st.store name),
                        diff := mergeUpdateDiffMap st.diff
                          [(name, dArg.getD (.leaf ct (lookupV st.store name) v))]
                          (if ct = ChangeType.remove then removeA st.store name
                            else setA st.store name v)
                          (if hasKeyA st.oldValues name then st.oldValues
                            else setA st.oldValues name (lookupV st.store name)),
                        pending := true } : ModelState) :=
                fun n hn => mem_dependentsOf _ _ _ hn
              have pres2 := ihR _ _ _ _ hmem heq
              obtain ⟨hc2, hm2, hp2, hs2, he2⟩ := pres2
              refine ⟨hc2, hm2, fun _ => hp2 rfl, ?_, ?_⟩
              · intro p hpt hpc
                have hpname : p ≠ name := by
                  intro he; exact hpt (he ▸ List.mem_singleton_self name)
                have := hs2 p (by simp) hpc
                obtain ⟨hst, hdf⟩ := this
                constructor
                · rw [hst]
                  by_cases hrm : ct = ChangeType.remove <;>
                    simp [hrm, lookupA_removeA_ne _ _ _ hpname, lookupA_setA_ne _ _ _ _ hpname]
                · rw [hdf]
                  exact mergeUpdateDiffMap_single_ne _ _ _ _ _ _ hpname
              · intro e he
                rcases List.mem_append.mp he with h1 | h1
                · by_cases hsil : opts.silent = true
                  · simp [hsil] at h1
                  · simp only [hsil, Bool.false_eq_true, if_neg, not_false_iff,
                      List.mem_singleton] at h1
                    subst h1
                    exact ⟨.inl (List.mem_singleton_self name), rfl⟩
                · have := he2 e h1
                  exact ⟨.inr (this.1.resolve_left (by simp)), this.2⟩
          · -- mutex positive: no cascade
            simp only [Option.some.injEq, Prod.mk.injEq] at h
            obtain ⟨rfl, rfl⟩ := h
            refine ⟨rfl, rfl, fun _ => rfl, ?_, ?_⟩
            · intro p hpt hpc
              have hpname : p ≠ name := by
                intro he; exact hpt (he ▸ List.mem_singleton_self name)
              constructor
              · by_cases hrm : ct = ChangeType.remove <;>
                  simp [hrm, lookupA_removeA_ne _ _ _ hpname, lookupA_setA_ne _ _ _ _ hpname]
              · exact mergeUpdateDiffMap_single_ne _ _ _ _ _ _ hpname
            · intro e he
              by_cases hsil : opts.silent = true
              · simp [hsil] at he
              · simp only [hsil, Bool.false_eq_true, if_neg, not_false_iff,
                  List.mem_singleton] at he
                subst he
                exact ⟨.inl (List.mem_singleton_self name), rfl⟩
      · -- setValue with the pre-change hook disabled
        intro st name v opts dArg st2 evs hdh h
        simp only [setValue] at h
        split at h
        · simp only [Option.some.injEq, Prod.mk.injEq] at h
          obtain ⟨rfl, rfl⟩ := h
          exact cascadePres_refl st [name]
        · rw [hdh] at h
          simp only [Bool.or_true, if_pos] at h
          exact ihA _ _ _ _ _ _ _ _ h
      · -- updateComputedProperty
        intro st n st2 evs h
        simp only [updateComputedProperty] at h
        split at h
        · simp only [Option.some.injEq, Prod.mk.injEq] at h
          obtain ⟨rfl, rfl⟩ := h
          exact cascadePres_refl st [n]
        · exact ihS _ _ _ _ _ _ _ rfl h
      · -- runComputedUpdates
        intro st names st2 evs hmem h
        cases names with
        | nil =>
            simp only [runComputedUpdates, Option.some.injEq, Prod.mk.injEq] at h
            obtain ⟨rfl, rfl⟩ := h
            exact cascadePres_refl st []
        | cons n rest =>
            simp only [runComputedUpdates] at h
            split at h
            · exact absurd h (by simp)
            · rename_i stA e1 heq1
              split at h
              · exact absurd h (by simp)
              · rename_i stB e2 heq2
                simp only [Option.some.injEq, Prod.mk.injEq] at h
                obtain ⟨rfl, rfl⟩ := h
                have pres1 := ihU _ _ _ _ heq1
                obtain ⟨hc1, hm1, hp1, hs1, he1⟩ := pres1
                have hmemA : ∀ x ∈ rest, x ∈ computedNames stA := by
                  intro x hx
                  have := hmem x (List.mem_cons_of_mem _ hx)
                  simpa [computedNames, hc1] using this
                have pres2 := ihR _ _ _ _ hmemA heq2
                obtain ⟨hc2, hm2, hp2, hs2, he2⟩ := pres2
                have hcn : computedNames stA = computedNames st := by
                  simp [computedNames, hc1]
                refine ⟨hc2.trans hc1, hm2.trans hm1, fun hp => hp2 (hp1 hp), ?_, ?_⟩
                · intro p hpt hpc
                  have hA := hs1 p
                    (by
                      intro hmem1
                      simp only [List.mem_singleton] at hmem1
                      exact hpc (hmem1 ▸ hmem n (List.mem_cons_self _ _)))
                    hpc
                  have hB := hs2 p (by simp) (hcn ▸ hpc)
                  exact ⟨hB.1.trans hA.1, hB.2.trans hA.2⟩
                · intro e he
                  rcases List.mem_append.mp he with h1 | h1
                  · have := he1 e h1
                    refine ⟨.inr ?_, this.2⟩
                    rcases this.1 with h2 | h2
                    · simp only [List.mem_singleton] at h2
                      exact h2 ▸ hmem n (List.mem_cons_self _ _)
                    · exact h2
                  · have := he2 e h1
                    exact ⟨.inr (hcn ▸ this.1.resolve_left (by simp)), this.2⟩

/-- Translation of `UPDATE_COMPUTED_PROPERTIES_FROM_DEPENDENCY`. -/
def updateComputedPropertiesFromDependency (hook : Hook) (fuel : Nat)
    (st : ModelState) (deps : List String) : Option (ModelState × List MEvent) :=
  runComputedUpdates hook fuel st (dependentsOf st.computed deps)

/-- Translation of `Model#set` for the embedded fragment: disposed and
missing-name guards, then the computed dispatch (getter-only descriptors
have no setter, so setting one throws the read-only error) or the plain
`SET_VALUE` pipeline. -/
def modelSet (hook : Hook) (fuel : Nat) (st : ModelState) (name : String)
    (value : Value) (options : MOptions) : Option (Except MErr (ModelState × List MEvent)) :=
  if st.disposed then some (.error .disposed)
  else if name = "" then some (.error .noName)
  else if hasComputedProperty st name then some (.error (.readonlyComputed name))
  else
    match setValue hook fuel st name value options none with
    | none => none
    | some r => some (.ok r)

/-- Translation of `Model#remove`: disposed and missing-name guards, early
exit when the key is absent; the whole removal — `beforechange`, the
`ASSIGN_VALUE` commit, everything — sits inside `if (!options.silent)`,
so a silent removal does nothing at all. -/
def modelRemove (hook : Hook) (fuel : Nat) (st : ModelState) (name : String)
    (options : MOptions) : Option (Except MErr (ModelState × List MEvent)) :=
  if st.disposed then some (.error .disposed)
  else if name = "" then some (.error .noName)
  else if hasPropertyB st name = false then some (.ok (st, []))
  else if options.silent then some (.ok (st, []))
  else
    let oldValue := lookupV st.store name
    let hr := hook name ChangeType.remove oldValue .undefined
    if hr.prevented then
      some (.ok (st, [MEvent.beforechange name ChangeType.remove oldValue .undefined]))
    else
      match assignValue hook fuel st name .undefined ChangeType.remove options none with
      | none => none
      | some (st2, evs) =>
          some (.ok (st2, MEvent.beforechange name ChangeType.remove oldValue .undefined :: evs))

/-- The per-key loop of `Model#update`: each top-level key of `commands`
is a property name whose current value is run through the update algebra
and committed via `SET_VALUE` carrying the algebra's diff.  Reading
`this[STORE][name]` on a disposed model raises a TypeError. -/
def updateLoop (hook : Hook) (fuel : Nat) (options : MOptions) :
    ModelState → List (String × CommandTree) → Option (Except MErr (ModelState × List MEvent))
  | st, [] => some (.ok (st, []))
  | st, (name, tree) :: rest =>
      if st.disposed then some (.error .typeError)
      else
        match updateAlg (lookupV st.store name) tree with
        | none => some (.error .typeError)
        | some (nv, d) =>
            match setValue hook fuel st name nv options d with
            | none => none
            | some (st2, evs) =>
                match updateLoop hook fuel options st2 rest with
                | none => none
                | some (.error e) => some (.error e)
                | some (.ok (st3, evs2)) => some (.ok (st3, evs ++ evs2))

/-- Translation of `Model#update`: increments the suppression mutex
around the per-key loop, then runs the dependency-driven re-evaluation
for all the updated top-level names. -/
def modelUpdate (hook : Hook) (fuel : Nat) (st : ModelState)
    (commands : List (String × CommandTree)) (options : MOptions) :
    Option (Except MErr (ModelState × List MEvent)) :=
  let st1 := { st with mutex := st.mutex + 1 }
  match updateLoop hook fuel options st1 commands with
  | none => none
  | some (.error e) => some (.error e)
  | some (.ok (st2, evs)) =>
      let st3 := { st2 with mutex := st2.mutex - 1 }
      match runComputedUpdates hook fuel st3
          (dependentsOf st3.computed (commands.map Prod.fst)) with
      | none => none
      | some (st4, evs2) => some (.ok (st4, evs ++ evs2))

theorem assignValue_mutexPos (hook : Hook) (fuel : Nat) (st : ModelState) (name : String)
    (v : Value) (ct : ChangeType) (opts : MOptions) (dArg : Option DiffNode)
    (st2 : ModelState) (evs : List MEvent) (hm : st.mutex ≠ 0)
    (h : assignValue hook fuel st name v ct opts dArg = some (st2, evs)) :
    st2.computed = st.computed ∧ st2.mutex = st.mutex ∧ st2.disposed = st.disposed ∧
    (∀ p, p ≠ name → lookupA st2.store p = lookupA st.store p) := by
  cases fuel with
  | zero => simp [assignValue] at h
  | succ fuel =>
      simp only [assignValue] at h
      by_cases hguard : ct = ChangeType.change ∧ seq v (lookupV st.store name) = true
      · rw [if_pos hguard] at h
        simp only [Option.some.injEq, Prod.mk.injEq] at h
        obtain ⟨rfl, rfl⟩ := h
        exact ⟨rfl, rfl, rfl, fun p _ => rfl⟩
      · rw [if_neg hguard, if_neg hm] at h
        simp only [Option.some.injEq, Prod.mk.injEq] at h
        obtain ⟨rfl, rfl⟩ := h
        refine ⟨rfl, rfl, rfl, ?_⟩
        intro p hp
        by_cases hrm : ct = ChangeType.remove <;>
          simp [hrm, lookupA_removeA_ne _ _ _ hp, lookupA_setA_ne _ _ _ _ hp]

theorem setValue_mutexPos (hook : Hook) (fuel : Nat) (st : ModelState) (name : String)
    (v : Value) (opts : MOptions) (dArg : Option DiffNode)
    (st2 : ModelState) (evs : List MEvent) (hm : st.mutex ≠ 0)
    (h : setValue hook fuel st name v opts dArg = some (st2, evs)) :
    st2.computed = st.computed ∧ st2.mutex = st.mutex ∧ st2.disposed = st.disposed ∧
    (∀ p, p ≠ name → lookupA st2.store p = lookupA st.store p) := by
  cases fuel with
  | zero => simp [setValue] at h
  | succ fuel =>
      simp only [setValue] at h
      by_cases hguard : hasPropertyB st name = true ∧ seq (lookupV st.store name) v = true
      · rw [if_pos hguard] at h
        simp only [Option.some.injEq, Prod.mk.injEq] at h
        obtain ⟨rfl, rfl⟩ := h
        exact ⟨rfl, rfl, rfl, fun p _ => rfl⟩
      · rw [if_neg hguard] at h
        by_cases hsd : (opts.silent || opts.disableHook) = true
        · rw [if_pos hsd] at h
          exact assignValue_mutexPos hook fuel st name v _ opts dArg st2 evs hm h
        · rw [if_neg hsd] at h
          by_cases hprev : (hook name
              (if hasPropertyB st name then ChangeType.change else ChangeType.add)
              (lookupV st.store name) v).prevented = true
          · rw [if_pos hprev] at h
            simp only [Option.some.injEq, Prod.mk.injEq] at h
            obtain ⟨rfl, rfl⟩ := h
            exact ⟨rfl, rfl, rfl, fun p _ => rfl⟩
          · rw [if_neg hprev] at h
            cases heq : assignValue hook fuel st name
                ((hook name (if hasPropertyB st name then ChangeType.change else ChangeType.add)
                  (lookupV st.store name) v).actualValue)
                (if hasPropertyB st name then ChangeType.change else ChangeType.add) opts
                (if seq ((hook name
                      (if hasPropertyB st name then ChangeType.change else ChangeType.add)
                      (lookupV st.store name) v).actualValue) v = true then dArg else none) with
            | none => rw [heq] at h; simp at h
            | some p =>
                rw [heq] at h
                simp only [Option.some.injEq, Prod.mk.injEq] at h
                obtain ⟨rfl, rfl⟩ := h
                obtain ⟨h1, h2, h3, h4⟩ :=
                  assignValue_mutexPos hook fuel st name _ _ opts _ p.1 p.2 hm heq
                exact ⟨h1, h2, h3, h4⟩

theorem updateLoop_pres (hook : Hook) (fuel : Nat) (opts : MOptions) :
    ∀ (cmds : List (String × CommandTree)) (st st2 : ModelState) (evs : List MEvent),
      st.mutex ≠ 0 →
      updateLoop hook fuel opts st cmds = some (.ok (st2, evs)) →
      st2.computed = st.computed ∧ st2.mutex = st.mutex ∧
      (∀ p, p ∉ cmds.map Prod.fst → lookupA st2.store p = lookupA st.store p) := by
  intro cmds
  induction cmds with
  | nil =>
      intro st st2 evs hm h
      simp only [updateLoop, Option.some.injEq, Except.ok.injEq, Prod.mk.injEq] at h
      obtain ⟨rfl, rfl⟩ := h
      exact ⟨rfl, rfl, fun p _ => rfl⟩
  | cons c rest ih =>
      obtain ⟨name, tree⟩ := c
      intro st st2 evs hm h
      simp only [updateLoop] at h
      split at h
      · exact absurd h (by simp)
      · split at h
        · exact absurd h (by simp)
        · split at h
          · exact absurd h (by simp)
          · rename_i stA evsA hsv
            split at h
            · exact absurd h (by simp)
            · exact absurd h (by simp)
            · rename_i st3 evs2 hrest
              simp only [Option.some.injEq, Except.ok.injEq, Prod.mk.injEq] at h
              obtain ⟨rfl, rfl⟩ := h
              obtain ⟨hcA, hmA, _, hsA⟩ :=
                setValue_mutexPos hook fuel st name _ opts _ stA evsA hm hsv
              obtain ⟨hc3, hm3, hs3⟩ := ih stA st3 evs2 (hmA ▸ hm) hrest
              refine ⟨hc3.trans hcA, hm3.trans hmA, ?_⟩
              intro p hp
              simp only [List.map_cons, List.mem_cons, not_or] at hp
              exact (hs3 p hp.2).trans (hsA p hp.1)

/-- Translation of `Model#get`: disposed and missing-name guards; a store
key wins; otherwise an uncached computed property is evaluated lazily and
cached (with no notification and no diff); otherwise `undefined`. -/
def modelGet (st : ModelState) (name : String) : Except MErr (Value × ModelState) :=
  if st.disposed then .error .disposed
  else if name = "" then .error .noName
  else if hasKeyA st.store name then .ok (lookupV st.store name, st)
  else
    match findDescriptor st name with
    | some d =>
        let v := d.getter st.store
        .ok (v, { st with store := setA st.store name v })
    | none => .ok (.undefined, st)

/-- Translation of `Model#has`: missing-name guard first, `false` on a
disposed model, otherwise `HAS_PROPERTY`. -/
def modelHas (st : ModelState) (name : String) : Except MErr Bool :=
  if name = "" then .error .noName
  else if st.disposed then .ok false
  else .ok (hasPropertyB st name)

/-- JS loose `value == null`. -/
def looseNull : Value → Bool
  | .undefined => true
  | .vnull => true
  | _ => false

/-- Translation of `Model#hasValue`: existence and not loosely null. -/
def modelHasValue (st : ModelState) (name : String) : Except MErr Bool :=
  if name = "" then .error .noName
  else if st.disposed then .ok false
  else .ok (hasPropertyB st name && !looseNull (lookupV st.store name))

/-- Translation of `Model#hasReadableValue`: `hasValue` and not the empty
string. -/
def modelHasReadableValue (st : ModelState) (name : String) : Except MErr Bool :=
  if name = "" then .error .noName
  else if st.disposed then .ok false
  else .ok (hasPropertyB st name && !looseNull (lookupV st.store name)
        && !(seq (lookupV st.store name) (.vstr "")))

/-- Translation of `Model#dump`: a shallow copy of the store, the empty
mapping once disposed (`clone(null) || {}`). -/
def modelDump (st : ModelState) : List (String × Value) :=
  if st.disposed then [] else st.store

/-- Translation of `Model#dispose`: releases observers, nulls the store,
the diff and the snapshot, clears the pending flag.  The descriptor table
and the mutex are left as they are, as in the source. -/
def modelDispose (st : ModelState) : ModelState :=
  { st with store := [], diff := [], oldValues := [], pending := false, disposed := true }

/-- Descriptor-table assignment `COMPUTED_PROPERTIES[name] = descriptor`. -/
def putDescriptor : List ComputedDescriptor → ComputedDescriptor → List ComputedDescriptor
  | [], d => [d]
  | d0 :: rest, d => if d0.name = d.name then d :: rest else d0 :: putDescriptor rest d

/-- Translation of `Model#defineComputedProperty` (getter form): register
the descriptor; when `evaluate` is set, evaluate immediately and cache
the initial value without touching the batch diff. -/
def defineComputedProperty (st : ModelState) (name : String) (deps : List String)
    (getter : List (String × Value) → Value) (evaluate : Bool) : ModelState :=
  let d : ComputedDescriptor := ⟨name, deps, getter, evaluate⟩
  let st2 := { st with computed := putDescriptor st.computed d }
  if evaluate then { st2 with store := setA st2.store name (getter st2.store) } else st2

/-! Concrete fixtures used by the witness and counterexample theorems. -/

/-- A freshly constructed model with no data. -/
def mdl0 : ModelState := ⟨[], [], [], [], 0, false, false⟩

/-- A freshly constructed model holding `{x: 1}`. -/
def mdlX : ModelState := ⟨[("x", .vint 1)], [], [], [], 0, false, false⟩

/-- A handler environment whose `beforechange` listener always calls
`preventDefault()`. -/
def preventHook : Hook := fun _ _ _ _ => ⟨true, .undefined⟩

/-- A computed descriptor `s = w + h` over dependencies `w` and `h`. -/
def descSize : ComputedDescriptor :=
  ⟨"s", ["w", "h"],
    fun sto =>
      match lookupV sto "w", lookupV sto "h" with
      | .vint a, .vint b => .vint (a + b)
      | _, _ => .undefined,
    false⟩

/-- A model holding `{w: 2, h: 3}` with the computed property `s`. -/
def mdlWH : ModelState := ⟨[("w", .vint 2), ("h", .vint 3)], [descSize], [], [], 0, false, false⟩

/-- A model holding `{w: 2}` with the lazily evaluated computed property
`s` never read: `s` is registered but absent from the store. -/
def mdlLazy : ModelState := ⟨[("w", .vint 2)], [descSize], [], [], 0, false, false⟩

theorem not_mem_computedNames (st : ModelState) (name : String)
    (h : hasComputedProperty st name = false) : name ∉ computedNames st := by
  intro hmem
  rcases List.mem_map.mp hmem with ⟨d, hd, hdn⟩
  have hall := List.any_eq_false.mp h d hd
  rw [hdn] at hall
  simp at hall

/-! Claim theorems. -/

/-- C1 (amended): merging a stored leaf `x` with a fresh leaf `y` nets to
no diff when `x` is an Add and `y` a Remove; otherwise the result keeps
`x.oldValue` and `y.newValue` with the change type Add when `x` was an
Add, Remove when `y` was a Remove, else Change — and the result is purged
exactly when that change type is Change and its `oldValue === newValue`
(Add and Remove results are never purged, even when the values agree). -/
theorem claim1_leaf_merge_amended (cx cy : ChangeType) (ox nx oy ny : Value) :
    mergeDiffObject (.leaf cx ox nx) (.leaf cy oy ny) =
      if cx = ChangeType.add ∧ cy = ChangeType.remove then none
      else
        let c := if cx = ChangeType.add then ChangeType.add
          else if cy = ChangeType.remove then ChangeType.remove else ChangeType.change
        if c = ChangeType.change ∧ seq ny ox = true then none
        else some (.leaf c ox ny) := by
  cases cx <;> cases cy <;>
    by_cases hs : seq ny ox = true <;>
      simp [mergeDiffObject, purgeUneccessaryDiffNode, hs]

/-- C1 counterexample: a stored Add leaf (`undefined → 1`) merged with a
fresh Change leaf (`1 → undefined`) yields an Add leaf whose `oldValue`
and `newValue` are both `undefined` — strictly equal — yet the node is
returned, not purged, contradicting the claim's final purge clause. -/
theorem claim1_counterexample :
    mergeDiffObject (.leaf .add .undefined (.vint 1)) (.leaf .change (.vint 1) .undefined) =
      some (.leaf .add .undefined .undefined) ∧ seq Value.undefined Value.undefined = true :=
  ⟨rfl, rfl⟩

/-- C9 (amended): the purge step removes a diff node exactly when it is an
empty structural node or a Change leaf whose `oldValue === newValue`;
Add and Remove leaves are retained even when their values are strictly
equal, so the claimed invariant holds only for Change leaves. -/
theorem claim9_purge_amended (d : DiffNode) :
    purgeUneccessaryDiffNode d = none ↔
      (d = .branch [] ∨ ∃ o n, d = .leaf .change o n ∧ seq n o = true) := by
  cases d with
  | leaf c o n =>
      cases c with
      | add => simp [purgeUneccessaryDiffNode]
      | remove => simp [purgeUneccessaryDiffNode]
      | change =>
          by_cases hs : seq n o = true
          · simp [purgeUneccessaryDiffNode, hs]
            exact ⟨o, n, ⟨rfl, rfl⟩, hs⟩
          · simp [purgeUneccessaryDiffNode, hs]
  | branch cs => cases cs <;> simp [purgeUneccessaryDiffNode]

/-- C9 counterexample: the single mutation `set('a', undefined)` on a
fresh model reaches a batch state whose accumulated diff holds the leaf
`{$change: 'add', oldValue: undefined, newValue: undefined}` — a leaf
with `oldValue === newValue` retained in the batch diff, contradicting
the claimed invariant. -/
theorem claim9_counterexample :
    modelSet defaultHook 2 mdl0 "a" .undefined ⟨false, false⟩ =
      some (.ok
        (⟨[("a", .undefined)], [], [("a", .leaf .add .undefined .undefined)], [("a", .undefined)], 0, true, false⟩,
          [.beforechange "a" .add .undefined .undefined, .change "a" .add .undefined .undefined])) := by
  simp [modelSet, setValue, assignValue, runComputedUpdates, dependentsOf, mdl0,
    mergeUpdateDiffMap, mergeDiffNode, hasPropertyB, hasComputedProperty, hasKeyA, lookupA,
    lookupV, setA, defaultHook, seq]

/-- C3 (code defect): `remove(name, {silent: true})` on an existing key is
a complete no-op — the state (store, batch diff, old-value snapshot,
pending flag) is returned unchanged and no notification fires — because
the source nests the `ASSIGN_VALUE` commit inside `if (!options.silent)`.
The claim (and the method's own documentation, which says `silent` only
suppresses the events) requires the key to be deleted and a Remove diff
folded into the batch. -/
theorem claim3_remove_silent_noop (hook : Hook) (fuel : Nat) (st : ModelState) (name : String)
    (h1 : st.disposed = false) (h2 : name ≠ "") (h3 : hasPropertyB st name = true) :
    modelRemove hook fuel st name ⟨true, false⟩ = some (.ok (st, [])) := by
  simp [modelRemove, h1, h2, h3]

/-- C3 witness: on the model `{x: 1}`, the silent removal of `x` returns
the state unchanged with no events. -/
theorem claim3_witness :
    modelRemove defaultHook 1 mdlX "x" ⟨true, false⟩ = some (.ok (mdlX, [])) :=
  claim3_remove_silent_noop defaultHook 1 mdlX "x" rfl (by decide) rfl

/-- C8 (amended): after `dispose()`, `get`, `set` and `remove` throw the
disposed-model error; `has`, `hasValue` and `hasReadableValue` return
`false`; `dump()` returns the empty mapping; a second `dispose()` is a
no-op.  `update`, however, never throws the disposed-model error: with a
non-empty commands object it fails with the TypeError raised by reading a
property of the nulled store, and with an empty commands object it
completes silently as a no-op. -/
theorem claim8_dispose_amended (st : ModelState) (hook : Hook) (fuel : Nat) (name : String)
    (v : Value) (opts : MOptions) (c0 : String × CommandTree)
    (cmds : List (String × CommandTree)) (h : name ≠ "") :
    modelGet (modelDispose st) name = .error .disposed ∧
    modelSet hook fuel (modelDispose st) name v opts = some (.error .disposed) ∧
    modelRemove hook fuel (modelDispose st) name opts = some (.error .disposed) ∧
    modelUpdate hook fuel (modelDispose st) (c0 :: cmds) opts = some (.error .typeError) ∧
    modelUpdate hook fuel (modelDispose st) [] opts = some (.ok (modelDispose st, [])) ∧
    modelHas (modelDispose st) name = .ok false ∧
    modelHasValue (modelDispose st) name = .ok false ∧
    modelHasReadableValue (modelDispose st) name = .ok false ∧
    modelDump (modelDispose st) = [] ∧
    modelDispose (modelDispose st) = modelDispose st := by
  obtain ⟨n0, t0⟩ := c0
  refine ⟨?_, ?_, ?_, ?_, ?_, ?_, ?_, ?_, ?_, ?_⟩
  · simp [modelGet, modelDispose]
  · simp [modelSet, modelDispose]
  · simp [modelRemove, modelDispose]
  · simp [modelUpdate, updateLoop, modelDispose]
  · simp [modelUpdate, updateLoop, runComputedUpdates, dependentsOf, modelDispose]
  · simp [modelHas, modelDispose, h]
  · simp [modelHasValue, modelDispose, h]
  · simp [modelHasReadableValue, modelDispose, h]
  · simp [modelDump, modelDispose]
  · rfl

/-- C8 witness: the amended statement at the model `{x: 1}`. -/
theorem claim8_witness :
    modelGet (modelDispose mdlX) "x" = .error .disposed ∧
    modelSet defaultHook 1 (modelDispose mdlX) "x" .undefined ⟨false, false⟩ =
      some (.error .disposed) ∧
    modelRemove defaultHook 1 (modelDispose mdlX) "x" ⟨false, false⟩ =
      some (.error .disposed) ∧
    modelUpdate defaultHook 1 (modelDispose mdlX) [("y", .node [])] ⟨false, false⟩ =
      some (.error .typeError) ∧
    modelUpdate defaultHook 1 (modelDispose mdlX) [] ⟨false, false⟩ =
      some (.ok (modelDispose mdlX, [])) ∧
    modelHas (modelDispose mdlX) "x" = .ok false ∧
    modelHasValue (modelDispose mdlX) "x" = .ok false ∧
    modelHasReadableValue (modelDispose mdlX) "x" = .ok false ∧
    modelDump (modelDispose mdlX) = [] ∧
    modelDispose (modelDispose mdlX) = modelDispose mdlX :=
  claim8_dispose_amended mdlX defaultHook 1 "x" .undefined ⟨false, false⟩ ("y", .node []) []
    (by decide)

/-- C8 counterexample: on a disposed model, `update({})` completes without
any error, and `update({x: {$set: 2}})` fails with the TypeError of
reading the nulled store — in neither case is the disposed-model error
thrown, contradicting the claim that every subsequent `update` throws
it. -/
theorem claim8_counterexample :
    modelUpdate defaultHook 1 (modelDispose mdlX) [] ⟨false, false⟩ =
      some (.ok (modelDispose mdlX, [])) ∧
    modelUpdate defaultHook 1 (modelDispose mdlX) [("x", .cset (.vint 2))] ⟨false, false⟩ =
      some (.error .typeError) := by
  constructor
  · simp [modelUpdate, updateLoop, runComputedUpdates, dependentsOf, modelDispose]
  · rfl

/-- C4 counterexample: `update({$set: ...})` on the model `{x: 1}` is not
rejected — no error is raised.  The root command key `$set` is treated as
an ordinary property name: the model fires `beforechange`/`change` for a
property called `$set`, stores it (as `undefined` here, the result of
running the payload as an empty command tree over the absent current
value), and folds an Add diff for key `$set` into the batch. -/
theorem claim4_counterexample :
    modelUpdate defaultHook 3 mdlX [("$set", .node [])] ⟨false, false⟩ =
      some (.ok
        (⟨[("x", .vint 1), ("$set", .undefined)], [], [("$set", .leaf .add .undefined .undefined)],
          [("$set", .undefined)], 0, true, false⟩,
          [.beforechange "$set" .add .undefined .undefined, .change "$set" .add .undefined .undefined])) := by
  simp [modelUpdate, updateLoop, updateAlg, updateChildren, setValue, assignValue,
    runComputedUpdates, dependentsOf, mdlX, mergeUpdateDiffMap, mergeDiffNode, hasPropertyB,
    hasComputedProperty, hasKeyA, lookupA, lookupV, setA, defaultHook, seq]

/-- C4 (amended): `Model#update` never applies a command to the whole
store.  Its top level is always read as a mapping of property names (a
root-level command key such as `$set` is treated as an ordinary property
name, with no rejection error), so after any successful bulk update every
store key that is neither named at the top level of the commands object
nor a computed property keeps exactly its previous value — root-level
replacement of the store is unreachable through this entry point. -/
theorem claim4_no_root_replacement (hook : Hook) (fuel : Nat) (st : ModelState)
    (commands : List (String × CommandTree)) (opts : MOptions) (p : String)
    (st2 : ModelState) (evs : List MEvent)
    (h : modelUpdate hook fuel st commands opts = some (.ok (st2, evs)))
    (hp1 : p ∉ commands.map Prod.fst) (hp2 : p ∉ computedNames st) :
    lookupA st2.store p = lookupA st.store p := by
  simp only [modelUpdate] at h
  cases hl : updateLoop hook fuel opts { st with mutex := st.mutex + 1 } commands with
  | none => rw [hl] at h; simp at h
  | some r =>
      rw [hl] at h
      cases r with
      | error e => simp at h
      | ok pr =>
          obtain ⟨stA, evsA⟩ := pr
          dsimp only at h
          cases hrc : runComputedUpdates hook fuel { stA with mutex := stA.mutex - 1 }
              (dependentsOf stA.computed (commands.map Prod.fst)) with
          | none => rw [hrc] at h; simp at h
          | some p2 =>
              rw [hrc] at h
              simp only [Option.some.injEq, Except.ok.injEq, Prod.mk.injEq] at h
              obtain ⟨h1, _⟩ := h
              obtain ⟨hcA, _, hsA⟩ := updateLoop_pres hook fuel opts commands
                { st with mutex := st.mutex + 1 } stA evsA (Nat.succ_ne_zero _) hl
              have hmem : ∀ n ∈ dependentsOf stA.computed (commands.map Prod.fst),
                  n ∈ computedNames ({ stA with mutex := stA.mutex - 1 } : ModelState) :=
                fun n hn => mem_dependentsOf _ _ _ hn
              obtain ⟨_, _, _, hs2, _⟩ :=
                ((pipelinePres hook fuel).2.2.2) _ _ _ _ hmem hrc
              have hpcA : p ∉ computedNames ({ stA with mutex := stA.mutex - 1 } : ModelState) := by
                simpa [computedNames, hcA] using hp2
              have hstep2 := (hs2 p (by simp) hpcA).1
              rw [← h1]
              exact hstep2.trans (hsA p hp1)

/-- C4 witness: the amended statement applied to the concrete run of
`update({$set: ...})` on `{x: 1}`: the untouched key `x` is preserved. -/
theorem claim4_witness :
    lookupA (⟨[("x", .vint 1), ("$set", .undefined)], [], [("$set", .leaf .add .undefined .undefined)],
      [("$set", .undefined)], 0, true, false⟩ : ModelState).store "x" = lookupA mdlX.store "x" := by
  have h : modelUpdate defaultHook 3 mdlX [("$set", .node [])] ⟨false, false⟩ =
      some (.ok
        (⟨[("x", .vint 1), ("$set", .undefined)], [], [("$set", .leaf .add .undefined .undefined)],
          [("$set", .undefined)], 0, true, false⟩,
          [.beforechange "$set" .add .undefined .undefined, .change "$set" .add .undefined .undefined])) := by
    simp [modelUpdate, updateLoop, updateAlg, updateChildren, setValue, assignValue,
      runComputedUpdates, dependentsOf, mdlX, mergeUpdateDiffMap, mergeDiffNode, hasPropertyB,
      hasComputedProperty, hasKeyA, lookupA, lookupV, setA, defaultHook, seq]
  exact claim4_no_root_replacement defaultHook 3 mdlX [("$set", .node [])] ⟨false, false⟩ "x"
    _ _ h (by decide) (by decide)

/-- C2 (amended): at a path whose accumulated node and fresh node have
different shapes, the batch merge behaves as claimed — a stored leaf
against a structural fresh node keeps the stored leaf with `newValue`
refreshed to the path's current (store) value, and a stored structural
node against a fresh leaf keeps the fresh leaf with `oldValue` overwritten
by the pre-batch snapshot value — except that the result is purged only
when the kept leaf's change type is Change and its `oldValue ===
newValue`; an Add or Remove leaf is kept even when its values agree. -/
theorem claim2_shape_mismatch_amended (dmap : List (String × DiffNode))
    (sto ov : List (String × Value)) (name : String) (c : ChangeType) (o n : Value)
    (cs : List (String × DiffNode)) :
    (lookupA dmap name = some (.leaf c o n) →
      lookupA (mergeUpdateDiffMap dmap [(name, .branch cs)] sto ov) name =
        if c = ChangeType.change ∧ seq (lookupV sto name) o = true then none
        else some (.leaf c o (lookupV sto name))) ∧
    (lookupA dmap name = some (.branch cs) →
      lookupA (mergeUpdateDiffMap dmap [(name, .leaf c o n)] sto ov) name =
        if c = ChangeType.change ∧ seq n (lookupV ov name) = true then none
        else some (.leaf c (lookupV ov name) n)) := by
  constructor
  · intro hd
    rw [mergeUpdateDiffMap_single_self, hd, mergeDiffNode_leaf_branch]
    cases c <;> by_cases hs : seq (lookupV sto name) o = true <;>
      simp [purgeUneccessaryDiffNode, hs]
  · intro hd
    rw [mergeUpdateDiffMap_single_self, hd, mergeDiffNode_branch_leaf]
    cases c <;> by_cases hs : seq n (lookupV ov name) = true <;>
      simp [purgeUneccessaryDiffNode, hs]

/-- C2 witness: both shape-mismatch rules at concrete inputs — a stored
Change leaf `1 → 2` merged with a structural node refreshes its
`newValue` to the current store value `5`, and a stored structural node
merged with a fresh Change leaf `1 → 2` rewrites the leaf's `oldValue` to
the snapshot value `0`. -/
theorem claim2_witness :
    lookupA (mergeUpdateDiffMap [("a", DiffNode.leaf .change (.vint 1) (.vint 2))]
      [("a", DiffNode.branch [("k", DiffNode.leaf .change (.vint 1) (.vint 2))])]
      [("a", .vint 5)] [("a", .vint 0)]) "a" =
      some (DiffNode.leaf .change (.vint 1) (.vint 5)) ∧
    lookupA (mergeUpdateDiffMap
      [("a", DiffNode.branch [("k", DiffNode.leaf .change (.vint 1) (.vint 2))])]
      [("a", DiffNode.leaf .change (.vint 1) (.vint 2))]
      [("a", .vint 5)] [("a", .vint 0)]) "a" =
      some (DiffNode.leaf .change (.vint 0) (.vint 2)) := by
  constructor
  · have h := (claim2_shape_mismatch_amended
        [("a", DiffNode.leaf .change (.vint 1) (.vint 2))] [("a", .vint 5)] [("a", .vint 0)]
        "a" .change (.vint 1) (.vint 2)
        [("k", DiffNode.leaf .change (.vint 1) (.vint 2))]).1 rfl
    simpa [lookupV, lookupA, seq] using h
  · have h := (claim2_shape_mismatch_amended
        [("a", DiffNode.branch [("k", DiffNode.leaf .change (.vint 1) (.vint 2))])]
        [("a", .vint 5)] [("a", .vint 0)]
        "a" .change (.vint 1) (.vint 2)
        [("k", DiffNode.leaf .change (.vint 1) (.vint 2))]).2 rfl
    simpa [lookupV, lookupA, seq] using h

/-- C2 counterexample: a stored Add leaf (`undefined → 1`) merged with a
structural fresh node, at a path whose current value is `undefined`,
keeps the Add leaf with `oldValue === newValue === undefined` — it is not
purged, contradicting the claim's parenthetical "purged if oldValue ===
newValue". -/
theorem claim2_counterexample :
    mergeDiffNode (some (.leaf .add .undefined (.vint 1)))
      (some (.branch [("k", .leaf .change .undefined (.vint 2))])) .undefined (.vint 9) =
      some (.leaf .add .undefined .undefined) := by
  rw [mergeDiffNode_leaf_branch]; rfl

/-- C7: when every `beforechange` handler cancels via `preventDefault()`,
a non-silent `set` on a non-computed name and a non-silent `remove` leave
the model state exactly as it was — the store, the batch diff, the
snapshot and the pending flag are all unchanged — and no `change` event
fires (the trace holds at most the `beforechange` notification itself). -/
theorem claim7_cancellation (hook : Hook) (fuel : Nat) (st : ModelState) (name : String)
    (v : Value) (stS stR : ModelState) (evsS evsR : List MEvent)
    (hprev : ∀ n ct o nv, (hook n ct o nv).prevented = true)
    (hnc : hasComputedProperty st name = false)
    (hs : modelSet hook fuel st name v ⟨false, false⟩ = some (.ok (stS, evsS)))
    (hr : modelRemove hook fuel st name ⟨false, false⟩ = some (.ok (stR, evsR))) :
    stS = st ∧ stR = st ∧
    (∀ e ∈ evsS, isChangeEvent e = false) ∧ (∀ e ∈ evsR, isChangeEvent e = false) := by
  by_cases hd : st.disposed = true
  · rw [modelSet, if_pos hd] at hs
    simp at hs
  by_cases hn : name = ""
  · rw [modelSet, if_neg hd, if_pos hn] at hs
    simp at hs
  rw [modelSet, if_neg hd, if_neg hn, if_neg (by simp [hnc])] at hs
  rw [modelRemove, if_neg hd, if_neg hn] at hr
  have hsetr : stS = st ∧ (∀ e ∈ evsS, isChangeEvent e = false) := by
    cases hsv : setValue hook fuel st name v ⟨false, false⟩ none with
    | none => rw [hsv] at hs; simp at hs
    | some p =>
        obtain ⟨p1, p2⟩ := p
        rw [hsv] at hs
        simp only [Option.some.injEq, Except.ok.injEq, Prod.mk.injEq] at hs
        obtain ⟨rfl, rfl⟩ := hs
        cases fuel with
        | zero => simp [setValue] at hsv
        | succ fuel =>
            simp only [setValue] at hsv
            by_cases hguard : hasPropertyB st name = true ∧
                seq (lookupV st.store name) v = true
            · rw [if_pos hguard] at hsv
              simp only [Option.some.injEq, Prod.mk.injEq] at hsv
              obtain ⟨h1, h2⟩ := hsv
              refine ⟨h1.symm, ?_⟩
              rw [← h2]
              simp
            · rw [if_neg hguard] at hsv
              simp only [Bool.or_self, Bool.false_eq_true, if_neg, not_false_iff] at hsv
              rw [if_pos (hprev name _ (lookupV st.store name) v)] at hsv
              simp only [Option.some.injEq, Prod.mk.injEq] at hsv
              obtain ⟨h1, h2⟩ := hsv
              refine ⟨h1.symm, ?_⟩
              rw [← h2]
              intro e he
              simp only [List.mem_singleton] at he
              subst he
              rfl
  refine ⟨hsetr.1, ?_, hsetr.2, ?_⟩
  all_goals {
    by_cases hp : hasPropertyB st name = false
    · rw [if_pos hp] at hr
      simp only [Option.some.injEq, Except.ok.injEq, Prod.mk.injEq] at hr
      first
        | exact hr.1.symm
        | · intro e he
            rw [← hr.2] at he
            simp at he
    · rw [if_neg hp] at hr
      simp only [Bool.false_eq_true, if_neg, not_false_iff] at hr
      rw [if_pos (hprev name ChangeType.remove (lookupV st.store name) Value.undefined)] at hr
      simp only [Option.some.injEq, Except.ok.injEq, Prod.mk.injEq] at hr
      first
        | exact hr.1.symm
        | · intro e he
            rw [← hr.2] at he
            simp only [List.mem_singleton] at he
            subst he
            rfl
  }

/-- C7 witness: the cancellation statement at the model `{x: 1}` with a
handler environment that always prevents: both a `set` of `2` to `x` and
a `remove` of `x` return the state unchanged with only a `beforechange`
notification. -/
theorem claim7_witness :
    mdlX = mdlX ∧ mdlX = mdlX ∧
    (∀ e ∈ [MEvent.beforechange "x" .change (.vint 1) (.vint 2)], isChangeEvent e = false) ∧
    (∀ e ∈ [MEvent.beforechange "x" .remove (.vint 1) .undefined], isChangeEvent e = false) :=
  claim7_cancellation preventHook 1 mdlX "x" (.vint 2) mdlX mdlX
    [MEvent.beforechange "x" .change (.vint 1) (.vint 2)]
    [MEvent.beforechange "x" .remove (.vint 1) .undefined]
    (fun _ _ _ _ => rfl) rfl rfl rfl

/-- C5: a silent `set` on an existing non-computed property with a
strictly different value commits the value to the store, merges its
Change diff node into the batch diff (against the post-assignment store
and the old-value snapshot), leaves the batched notification scheduled,
and fires no notification for that mutation — every event in the trace
is a `change` of some cascaded computed property, never of `name`, and
there is no `beforechange` at all. -/
theorem claim5_silent_set_commits (hook : Hook) (fuel : Nat) (st : ModelState) (name : String)
    (v : Value) (st2 : ModelState) (evs : List MEvent)
    (h1 : st.disposed = false) (h2 : name ≠ "")
    (h3 : hasComputedProperty st name = false)
    (h4 : hasKeyA st.store name = true)
    (h5 : seq (lookupV st.store name) v = false)
    (h : modelSet hook fuel st name v ⟨true, false⟩ = some (.ok (st2, evs))) :
    lookupV st2.store name = v ∧
    st2.pending = true ∧
    lookupA st2.diff name =
      mergeDiffNode (lookupA st.diff name)
        (some (.leaf .change (lookupV st.store name) v)) v
        (if hasKeyA st.oldValues name then lookupV st.oldValues name
          else lookupV st.store name) ∧
    (∀ e ∈ evs, eventName e ≠ name ∧ isChangeEvent e = true) := by
  rw [modelSet, if_neg (by simp [h1]), if_neg h2, if_neg (by simp [h3])] at h
  have hpb : hasPropertyB st name = true := by simp [hasPropertyB, h4]
  have hvold : seq v (lookupV st.store name) = false := seq_symm_false _ _ h5
  cases hsv : setValue hook fuel st name v ⟨true, false⟩ none with
  | none => rw [hsv] at h; simp at h
  | some p =>
      obtain ⟨stA, evsA⟩ := p
      rw [hsv] at h
      simp only [Option.some.injEq, Except.ok.injEq, Prod.mk.injEq] at h
      obtain ⟨rfl, rfl⟩ := h
      cases fuel with
      | zero => simp [setValue] at hsv
      | succ fuel =>
          simp only [setValue] at hsv
          rw [if_neg (fun hg : _ ∧ _ => by rw [h5] at hg; exact absurd hg.2 (by simp))] at hsv
          simp only [hpb, if_true] at hsv
          cases fuel with
          | zero => simp [assignValue] at hsv
          | succ fuel =>
              simp only [assignValue] at hsv
              rw [if_neg (fun hg : _ ∧ _ => by rw [hvold] at hg; exact absurd hg.2 (by simp))]
                at hsv
              simp only [Option.getD_none,
                if_neg (show ¬(ChangeType.change = ChangeType.remove) from by simp),
                Bool.true_or, eq_self_iff_true, if_true] at hsv
              have hov : lookupV
                  (if hasKeyA st.oldValues name then st.oldValues
                    else setA st.oldValues name (lookupV st.store name)) name =
                  (if hasKeyA st.oldValues name then lookupV st.oldValues name
                    else lookupV st.store name) := by
                by_cases hk : hasKeyA st.oldValues name <;>
                  simp [hk, lookupV, lookupA_setA_self]
              have hdiff : lookupA
                  (mergeUpdateDiffMap st.diff
                    [(name, .leaf ChangeType.change (lookupV st.store name) v)]
                    (setA st.store name v)
                    (if hasKeyA st.oldValues name then st.oldValues
                      else setA st.oldValues name (lookupV st.store name))) name =
                  mergeDiffNode (lookupA st.diff name)
                    (some (.leaf .change (lookupV st.store name) v)) v
                    (if hasKeyA st.oldValues name then lookupV st.oldValues name
                      else lookupV st.store name) := by
                rw [mergeUpdateDiffMap_single_self]
                rw [hov]
                have : lookupV (setA st.store name v) name = v := by
                  simp [lookupV, lookupA_setA_self]
                rw [this]
              by_cases hm : st.mutex = 0
              · rw [if_pos hm] at hsv
                split at hsv
                · exact absurd hsv (by simp)
                · rename_i st3 evs2 heq
                  simp only [Option.some.injEq, Prod.mk.injEq] at hsv
                  obtain ⟨rfl, rfl⟩ := hsv
                  obtain ⟨hc2, _, hp2, hs2, he2⟩ :=
                    ((pipelinePres hook fuel).2.2.2) _ _ st3 evs2
                      (fun n hn => mem_dependentsOf _ _ _ hn) heq
                  have hnotc : name ∉ computedNames st := not_mem_computedNames st name h3
                  obtain ⟨hsp, hdp⟩ := hs2 name (by simp) hnotc
                  refine ⟨?_, hp2 rfl, ?_, ?_⟩
                  · rw [lookupV, hsp]
                    simp [lookupA_setA_self]
                  · rw [hdp, hdiff]
                  · intro e he
                    have hone := he2 e (by simpa using he)
                    have hin : eventName e ∈ computedNames st :=
                      hone.1.resolve_left (by simp)
                    exact ⟨fun hne => hnotc (hne ▸ hin), hone.2⟩
              · rw [if_neg hm] at hsv
                simp only [Option.some.injEq, Prod.mk.injEq] at hsv
                obtain ⟨rfl, rfl⟩ := hsv
                refine ⟨?_, rfl, ?_, ?_⟩
                · simp [lookupV, lookupA_setA_self]
                · exact hdiff
                · intro e he
                  simp at he

/-- C5 witness: on the model `{x: 1}`, the silent set of `2` to `x`
commits the value, schedules the batch, merges the Change leaf into the
batch diff and fires nothing. -/
theorem claim5_witness :
    lookupV (⟨[("x", .vint 2)], [], [("x", .leaf .change (.vint 1) (.vint 2))],
      [("x", .vint 1)], 0, true, false⟩ : ModelState).store "x" = .vint 2 ∧
    (⟨[("x", .vint 2)], [], [("x", .leaf .change (.vint 1) (.vint 2))],
      [("x", .vint 1)], 0, true, false⟩ : ModelState).pending = true ∧
    lookupA (⟨[("x", .vint 2)], [], [("x", .leaf .change (.vint 1) (.vint 2))],
      [("x", .vint 1)], 0, true, false⟩ : ModelState).diff "x" =
      mergeDiffNode (lookupA mdlX.diff "x")
        (some (.leaf .change (lookupV mdlX.store "x") (.vint 2))) (.vint 2)
        (if hasKeyA mdlX.oldValues "x" then lookupV mdlX.oldValues "x"
          else lookupV mdlX.store "x") ∧
    (∀ e ∈ ([] : List MEvent), eventName e ≠ "x" ∧ isChangeEvent e = true) := by
  have h : modelSet defaultHook 2 mdlX "x" (.vint 2) ⟨true, false⟩ =
      some (.ok (⟨[("x", .vint 2)], [], [("x", .leaf .change (.vint 1) (.vint 2))],
        [("x", .vint 1)], 0, true, false⟩, [])) := by
    simp [modelSet, setValue, assignValue, runComputedUpdates, dependentsOf, mdlX,
      mergeUpdateDiffMap, mergeDiffNode, hasPropertyB, hasComputedProperty, hasKeyA,
      lookupA, lookupV, setA, seq]
  exact claim5_silent_set_commits defaultHook 2 mdlX "x" (.vint 2) _ _ rfl (by decide)
    rfl rfl rfl h

theorem singleDescriptorCascade (hook : Hook) (fuel : Nat) (stb : ModelState)
    (d : ComputedDescriptor) (st3 : ModelState) (evs2 : List MEvent)
    (hcomp : stb.computed = [d])
    (hmx : stb.mutex = 0)
    (hself : d.dependencies.contains d.name = false)
    (h : runComputedUpdates hook fuel stb [d.name] = some (st3, evs2)) :
    (∀ e ∈ evs2, isChangeEvent e = true) ∧
    lookupV st3.store d.name = d.getter stb.store := by
  cases fuel with
  | zero => simp [runComputedUpdates] at h
  | succ fuel =>
      simp only [runComputedUpdates] at h
      cases hup : updateComputedProperty hook fuel stb d.name with
      | none => rw [hup] at h; simp at h
      | some p =>
          obtain ⟨stA, e1⟩ := p
          rw [hup] at h
          simp only [runComputedUpdates, Option.some.injEq, Prod.mk.injEq,
            List.append_nil] at h
          obtain ⟨rfl, rfl⟩ := h
          cases fuel with
          | zero => simp [updateComputedProperty] at hup
          | succ fuel =>
              simp only [updateComputedProperty] at hup
              have hfind : findDescriptor stb d.name = some d := by
                simp [findDescriptor, hcomp]
              rw [hfind] at hup
              have hpbd : hasPropertyB stb d.name = true := by
                simp [hasPropertyB, hasComputedProperty, hcomp]
              cases fuel with
              | zero => simp [setValue] at hup
              | succ fuel =>
                  simp only [setValue] at hup
                  by_cases hseq : seq (lookupV stb.store d.name) (d.getter stb.store) = true
                  · rw [if_pos ⟨hpbd, hseq⟩] at hup
                    simp only [Option.some.injEq, Prod.mk.injEq] at hup
                    obtain ⟨h1, h2⟩ := hup
                    refine ⟨?_, ?_⟩
                    · rw [← h2]; simp
                    · rw [← h1]
                      exact eq_of_seq _ _ hseq
                  · rw [if_neg (fun hg : _ ∧ _ => hseq hg.2)] at hup
                    rw [if_pos (show ((⟨false, true⟩ : MOptions).silent ||
                      (⟨false, true⟩ : MOptions).disableHook) = true from rfl)] at hup
                    rw [if_pos hpbd] at hup
                    have hseqf : seq (lookupV stb.store d.name) (d.getter stb.store) = false := by
                      cases hx : seq (lookupV stb.store d.name) (d.getter stb.store)
                      · rfl
                      · exact absurd hx hseq
                    have hvv : seq (d.getter stb.store) (lookupV stb.store d.name) = false :=
                      seq_symm_false _ _ hseqf
                    cases fuel with
                    | zero => simp [assignValue] at hup
                    | succ fuel =>
                        simp only [assignValue] at hup
                        rw [if_neg (fun hg : _ ∧ _ => by
                          rw [hvv] at hg; exact absurd hg.2 (by simp))] at hup
                        rw [if_pos hmx] at hup
                        simp only [Option.getD_none,
                          if_neg (show ¬(ChangeType.change = ChangeType.remove) from by simp),
                          if_neg (show ¬((false : Bool) = true) from by simp),
                          Bool.false_or, eq_self_iff_true, if_true] at hup
                        have hdeps : dependentsOf stb.computed [d.name] = [] := by
                          rw [hcomp]
                          exact dependentsOf_eq_nil [d] d.name (by
                            intro d' hd'
                            simp only [List.mem_singleton] at hd'
                            subst hd'
                            exact hself)
                        rw [hdeps] at hup
                        simp only [runComputedUpdates, Option.some.injEq, Prod.mk.injEq,
                          List.append_nil] at hup
                        obtain ⟨h1, h2⟩ := hup
                        refine ⟨?_, ?_⟩
                        · intro e he
                          rw [← h2] at he
                          simp only [List.mem_singleton] at he
                          subst he
                          rfl
                        · rw [← h1]
                          simp [lookupV, lookupA_setA_self]

/-- C6: a commit through `ASSIGN_VALUE` at suppression-mutex zero drives
the computed-property cascade: the registered descriptor whose dependency
set contains the committed name has its getter re-invoked against the
post-commit store, and the result is applied through the same commit
pipeline with the pre-change hook disabled — every event the commit and
its cascade emit is a `change` notification (a computed property never
emits `beforechange`), and the computed property's cached value ends up
strictly equal to its getter applied to the committed store.  Stated for
a descriptor table holding the one dependent descriptor, which may not
depend on itself. -/
theorem claim6_computed_reevaluation (hook : Hook) (fuel : Nat) (st : ModelState)
    (name : String) (v : Value) (ct : ChangeType) (opts : MOptions) (dArg : Option DiffNode)
    (st2 : ModelState) (evs : List MEvent) (d : ComputedDescriptor)
    (hmx : st.mutex = 0)
    (hcomp : st.computed = [d])
    (hdep : d.dependencies.contains name = true)
    (hself : d.dependencies.contains d.name = false)
    (hcommit : ¬(ct = ChangeType.change ∧ seq v (lookupV st.store name) = true))
    (h : assignValue hook fuel st name v ct opts dArg = some (st2, evs)) :
    (∀ e ∈ evs, isChangeEvent e = true) ∧
    lookupV st2.store d.name =
      d.getter (if ct = ChangeType.remove then removeA st.store name
        else setA st.store name v) := by
  cases fuel with
  | zero => simp [assignValue] at h
  | succ fuel =>
      simp only [assignValue] at h
      rw [if_neg hcommit, if_pos hmx] at h
      have hdepm : name ∈ d.dependencies := by simpa using hdep
      have hdeps : dependentsOf st.computed [name] = [d.name] := by
        rw [hcomp]
        simp [dependentsOf, hdepm, List.foldl]
      rw [hdeps] at h
      split at h
      · exact absurd h (by simp)
      · rename_i st3 evs2 heq
        simp only [Option.some.injEq, Prod.mk.injEq] at h
        obtain ⟨rfl, rfl⟩ := h
        have hsc : (∀ e ∈ evs2, isChangeEvent e = true) ∧
            lookupV st3.store d.name =
              d.getter (if ct = ChangeType.remove then removeA st.store name
                else setA st.store name v) := by
          refine singleDescriptorCascade hook fuel _ d st3 evs2 ?_ ?_ hself heq
          · exact hcomp
          · exact hmx
        refine ⟨?_, hsc.2⟩
        intro e he
        rcases List.mem_append.mp he with h1 | h1
        · by_cases hsil : opts.silent = true
          · simp [hsil] at h1
          · simp only [hsil, Bool.false_eq_true, if_neg, not_false_iff,
              List.mem_singleton] at h1
            subst h1
            rfl
        · exact hsc.1 e h1

/-- C6 witness: on the model `{w: 2, h: 3}` with computed `s = w + h`, the
commit of `10` to `w` at mutex zero re-evaluates `s` to `13` through the
hookless pipeline, and the trace holds only `change` events. -/
theorem claim6_witness :
    (∀ e ∈ [MEvent.change "w" .change (.vint 2) (.vint 10),
      MEvent.change "s" .change .undefined (.vint 13)], isChangeEvent e = true) ∧
    lookupV (⟨[("w", .vint 10), ("h", .vint 3), ("s", .vint 13)], [descSize],
      [("w", .leaf .change (.vint 2) (.vint 10)), ("s", .leaf .change .undefined (.vint 13))],
      [("w", .vint 2), ("s", .undefined)], 0, true, false⟩ : ModelState).store
      descSize.name =
      descSize.getter (if ChangeType.change = ChangeType.remove
        then removeA mdlWH.store "w" else setA mdlWH.store "w" (.vint 10)) := by
  have h : assignValue defaultHook 5 mdlWH "w" (.vint 10) .change ⟨false, false⟩ none =
      some (⟨[("w", .vint 10), ("h", .vint 3), ("s", .vint 13)], [descSize],
        [("w", .leaf .change (.vint 2) (.vint 10)), ("s", .leaf .change .undefined (.vint 13))],
        [("w", .vint 2), ("s", .undefined)], 0, true, false⟩,
        [MEvent.change "w" .change (.vint 2) (.vint 10),
          MEvent.change "s" .change .undefined (.vint 13)]) := by
    simp [assignValue, setValue, updateComputedProperty, runComputedUpdates, findDescriptor,
      dependentsOf, mdlWH, descSize, mergeUpdateDiffMap, mergeDiffNode, hasPropertyB,
      hasComputedProperty, hasKeyA, lookupA, lookupV, setA, seq]
  exact claim6_computed_reevaluation defaultHook 5 mdlWH "w" (.vint 10) .change ⟨false, false⟩
    none _ _ descSize rfl rfl (by decide) (by decide) (by decide) h

/-- C10: for a computed property that was defined without `evaluate:
true` and never read — registered in the descriptor table but absent from
the store — the first committed assignment of its value through the
hook-disabled pipeline reports `changeType: 'change'` with `oldValue:
undefined`, never `'add'`, because the existence test that classifies the
change (`HAS_PROPERTY`) consults the computed-descriptor table in
addition to the store's own keys.  The emitted `change` event and the
diff leaf merged into the batch both carry the Change type.  (Stated for
a property no other descriptor depends on, so the cascade is empty.) -/
theorem claim10_computed_first_commit (hook : Hook) (fuel : Nat) (st : ModelState)
    (name : String) (v : Value) (st2 : ModelState) (evs : List MEvent)
    (h1 : hasComputedProperty st name = true)
    (h2 : hasKeyA st.store name = false)
    (h3 : seq Value.undefined v = false)
    (h4 : ∀ d ∈ st.computed, d.dependencies.contains name = false)
    (h5 : hasKeyA st.oldValues name = false)
    (h : setValue hook fuel st name v ⟨false, true⟩ none = some (st2, evs)) :
    evs = [MEvent.change name .change .undefined v] ∧
    lookupV st2.store name = v ∧
    lookupA st2.diff name =
      mergeDiffNode (lookupA st.diff name) (some (.leaf .change .undefined v)) v .undefined := by
  have hnone : lookupA st.store name = none := by
    cases hx : lookupA st.store name with
    | none => rfl
    | some w => rw [hasKeyA, hx] at h2; simp at h2
  have hold : lookupV st.store name = .undefined := by rw [lookupV, hnone]; rfl
  have hpb : hasPropertyB st name = true := by simp [hasPropertyB, h1]
  have hvu : seq v Value.undefined = false := seq_symm_false _ _ h3
  cases fuel with
  | zero => simp [setValue] at h
  | succ fuel =>
      simp only [setValue] at h
      rw [if_neg (fun hg : _ ∧ _ => by
        have hx := hg.2
        rw [hold, h3] at hx
        exact absurd hx (by simp))] at h
      rw [if_pos (show ((⟨false, true⟩ : MOptions).silent ||
        (⟨false, true⟩ : MOptions).disableHook) = true from rfl)] at h
      simp only [hpb, if_true] at h
      cases fuel with
      | zero => simp [assignValue] at h
      | succ fuel =>
          simp only [assignValue] at h
          rw [if_neg (fun hg : _ ∧ _ => by
            have hx := hg.2
            rw [hold, hvu] at hx
            exact absurd hx (by simp))] at h
          rw [h5] at h
          simp only [Option.getD_none,
            if_neg (show ¬(ChangeType.change = ChangeType.remove) from by simp),
            if_neg (show ¬((false : Bool) = true) from by simp)] at h
          have hdeps : dependentsOf st.computed [name] = [] := dependentsOf_eq_nil _ _ h4
          have hstore2 : lookupV (setA st.store name v) name = v := by
            simp [lookupV, lookupA_setA_self]
          have hov : lookupV (setA st.oldValues name (lookupV st.store name)) name =
              Value.undefined := by
            rw [hold]
            simp [lookupV, lookupA_setA_self]
          have hdiff : lookupA
              (mergeUpdateDiffMap st.diff
                [(name, .leaf ChangeType.change (lookupV st.store name) v)]
                (setA st.store name v)
                (setA st.oldValues name (lookupV st.store name))) name =
              mergeDiffNode (lookupA st.diff name) (some (.leaf .change .undefined v)) v
                Value.undefined := by
            rw [mergeUpdateDiffMap_single_self, hstore2, hov, hold]
          by_cases hm : st.mutex = 0
          · rw [if_pos hm, hdeps] at h
            simp only [runComputedUpdates, Option.some.injEq, Prod.mk.injEq,
              List.append_nil] at h
            obtain ⟨h6, h7⟩ := h
            refine ⟨by rw [← h7, hold], ?_, ?_⟩
            · rw [← h6]
              exact hstore2
            · rw [← h6]
              exact hdiff
          · rw [if_neg hm] at h
            simp only [Option.some.injEq, Prod.mk.injEq] at h
            obtain ⟨h6, h7⟩ := h
            refine ⟨by rw [← h7, hold], ?_, ?_⟩
            · rw [← h6]
              exact hstore2
            · rw [← h6]
              exact hdiff

/-- C10 witness: on the model `{w: 2}` whose lazily evaluated computed
property `s` was never read, committing `7` to `s` through the
hook-disabled pipeline reports a Change (not an Add) with `oldValue`
`undefined`, both in the event and in the merged diff leaf. -/
theorem claim10_witness :
    ([MEvent.change "s" .change .undefined (.vint 7)] =
      [MEvent.change "s" .change .undefined (.vint 7)]) ∧
    lookupV (⟨[("w", .vint 2), ("s", .vint 7)], [descSize],
      [("s", .leaf .change .undefined (.vint 7))], [("s", .undefined)], 0, true, false⟩ :
      ModelState).store "s" = .vint 7 ∧
    lookupA (⟨[("w", .vint 2), ("s", .vint 7)], [descSize],
      [("s", .leaf .change .undefined (.vint 7))], [("s", .undefined)], 0, true, false⟩ :
      ModelState).diff "s" =
      mergeDiffNode (lookupA mdlLazy.diff "s") (some (.leaf .change .undefined (.vint 7)))
        (.vint 7) .undefined := by
  have h : setValue defaultHook 2 mdlLazy "s" (.vint 7) ⟨false, true⟩ none =
      some (⟨[("w", .vint 2), ("s", .vint 7)], [descSize],
        [("s", .leaf .change .undefined (.vint 7))], [("s", .undefined)], 0, true, false⟩,
        [MEvent.change "s" .change .undefined (.vint 7)]) := by
    simp [setValue, assignValue, runComputedUpdates, dependentsOf, mdlLazy, descSize,
      mergeUpdateDiffMap, mergeDiffNode, hasPropertyB, hasComputedProperty, hasKeyA,
      lookupA, lookupV, setA, seq]
  have hr := claim10_computed_first_commit defaultHook 2 mdlLazy "s" (.vint 7) _ _
    rfl rfl rfl (by
      intro d hd
      simp only [mdlLazy, List.mem_singleton] at hd
      subst hd
      rfl) rfl h
  exact ⟨rfl, hr.2.1, hr.2.2⟩

end EMC
